import Mathlib

/-!
Verification of the peakTree spectral peak-tree builder.

The Python source (peakTree/__init__.py) is shallowly embedded below.
Machine floats are modelled as exact rationals, numpy arrays as lists,
and the in-place tree mutation of `Node.add_noise_sep` / `Node.add_min`
as state-passing functions returning the new tree together with a flag
that records whether the call raised an exception.

The helper module `peakTree.helpers` is not part of the sources; the few
helpers used by the embedded code (`fill_with`, and the dB conversions
`lin2z` / `z2lin`) are modelled from the spec where needed, each marked
by a doc comment starting with "Modelled from the spec:".
-/

namespace PeakTree

/-! ## numpy / python list primitives -/

/-- Python slice `l[a:b]` for nonnegative slice indices `a`, `b`
(all slice indices produced by the embedded code are nonnegative). -/
def pyslice (l : List ℚ) (a b : Nat) : List ℚ := (l.drop a).take (b - a)

/-- Modelled from the spec: `helpers.fill_with(array, mask, value)` returns a copy of
`array` in which every bin whose mask entry is set is replaced by `value`
("explicit parallel validity arrays plus deterministic zero-fill", spec section 9). -/
def fill_with (arr : List ℚ) (mask : List Bool) (value : ℚ) : List ℚ :=
  arr.zipWith (fun z m => if m then value else z) mask

/-- Value at `np.argmax`, i.e. the maximum of a nonempty list; the empty case
(where `np.argmax` raises and callers guard) defaults to `0`. -/
def listMaxD : List ℚ → ℚ
  | [] => 0
  | h :: t => t.foldl max h

/-- numpy `.min()` of a nonempty list; the empty case (where numpy raises and
callers guard) defaults to `0`. -/
def listMinD : List ℚ → ℚ
  | [] => 0
  | h :: t => t.foldl min h

/-- Modelled from the spec: `helpers.lin2z x = 10 * log10 x` (glossary: the dB form of a
linear reflectivity). The tree builder only ever uses the comparison
`h.lin2z p > self.prom_filter` with `prom_filter = 1.0`; for `p > 0` this is
equivalent to `p ^ 10 > 10`, and for `p ≤ 0` the Python comparison is
`NaN > 1.0` (or `-inf > 1.0`), which is false. -/
def lin2z_gt_prom (p : ℚ) : Bool := decide (0 < p) && decide (10 < p ^ 10)

/-- Float division of the source, written in a kernel-computable form
(`Rat.divInt` of cross-multiplied numerators and denominators);
`fdiv_eq_div` shows it is ordinary rational division. -/
def fdiv (a b : ℚ) : ℚ := Rat.divInt (a.num * b.den) (a.den * b.num)

theorem fdiv_eq_div (a b : ℚ) : fdiv a b = a / b := by
  rw [fdiv, Rat.divInt_eq_div]
  by_cases hb : b = 0
  · subst hb
    simp
  · have hbn : (b.num : ℚ) ≠ 0 := by
      simpa using Rat.num_ne_zero.mpr hb
    have had : (a.den : ℚ) ≠ 0 := by
      simpa using a.den_nz
    have h1 : (a.num : ℚ) = a * a.den := (div_eq_iff had).mp (Rat.num_div_den a)
    have h2 : (b.num : ℚ) = b * b.den :=
      (div_eq_iff (by simpa using b.den_nz)).mp (Rat.num_div_den b)
    push_cast
    rw [div_eq_div_iff (mul_ne_zero had hbn) hb, h1, h2]
    ring

/-- numpy `np.diff`: `(np_diff l)[i] = l[i+1] - l[i]`. -/
def np_diff (l : List ℚ) : List ℚ := l.zipWith (fun a b => b - a) l.tail

/-- numpy `np.sign` on a rational. -/
def np_sign (x : ℚ) : ℚ := if 0 < x then 1 else if x < 0 then -1 else 0

/-- Auxiliary loop of `np.argmax`: first index of the maximum. -/
def argmaxAux (best : Nat) (bestv : ℤ) (i : Nat) : List ℤ → Nat
  | [] => best
  | x :: t => if bestv < x then argmaxAux i x (i + 1) t else argmaxAux best bestv (i + 1) t

/-- numpy `np.argmax`: index of the first occurrence of the maximum; the empty case
(where numpy raises and callers guard) defaults to `0`. -/
def argmaxList : List ℤ → Nat
  | [] => 0
  | h :: t => argmaxAux 0 h 1 t

/-! ## detect_peak_simple -/

/-- The list comprehension `[ind.index(x) for x, y in zip(ind, ind[1:]) if y - x != 1]`
from `detect_peak_simple`. -/
def jumpsOf (ind : List Nat) : List Nat :=
  ((ind.zip ind.tail).filter (fun p => decide ((p.2 : ℤ) - (p.1 : ℤ) ≠ 1))).map
    (fun p => ind.indexOf p.1)

/-- numpy `np.split(l, cuts)` for an ascending cut list (the cuts produced by
`detect_peak_simple` are strictly ascending positions). -/
def splitsAt : List Nat → List Nat → List (List Nat)
  | l, [] => [l]
  | l, c :: cs => l.take c :: splitsAt (l.drop c) (cs.map (· - c))
termination_by _ cuts => cuts.length

/-- Core of `detect_peak_simple` after the `np.where` step: split the index list at
the jumps and emit `(first, last)` of every run, or `[]` when the first run is empty. -/
def runsFromInd (ind : List Nat) : List (Nat × Nat) :=
  let jumps := jumpsOf ind
  let runs := splitsAt ind (jumps.map (· + 1))
  if 0 < (runs.headD []).length then runs.map (fun r => (r.headD 0, r.getLastD 0)) else []

/-- Embedding of `detect_peak_simple(array, lthres)`: maximal runs of indices with
`array[i] > lthres`, reported as `(first, last)` pairs. -/
def detect_peak_simple (array : List ℚ) (lthres : ℚ) : List (Nat × Nat) :=
  runsFromInd ((List.range array.length).filter (fun i => decide (lthres < array.getD i 0)))

/-! ## get_minima -/

/-- Embedding of `get_minima(array)`: minima found via sign changes of the first
difference, returned as `(index, value)` pairs sorted ascending by value
(Python `sorted` is stable; so is `List.mergeSort`). -/
def get_minima (array : List ℚ) : List (Nat × ℚ) :=
  let sdiff := np_diff ((np_diff array).map np_sign)
  let rising_1 := sdiff.map (fun x => decide (x = 2))
  let rising_2 := (sdiff.dropLast.zip sdiff.tail).map (fun p => decide (p.1 = 1) && decide (p.2 = 1))
  let rising_all :=
    match rising_1 with
    | [] => ([] : List Bool)
    | h :: t => h :: t.zipWith (· || ·) rising_2
  let min_ind := ((List.range rising_all.length).filter (fun i => rising_all.getD i false)).map (· + 1)
  let minima := min_ind.map (fun i => (i, array.getD i 0))
  minima.mergeSort (fun a b => decide (a.2 ≤ b.2))

/-! ## split_peak_ind_by_space and peak_pairs_to_call -/

/-- The inter-peak spacing `left_i[1:] - right_i[:-1]` of `split_peak_ind_by_space`. -/
def spacingOf (peak_ind : List (Nat × Nat)) : List ℤ :=
  (peak_ind.map (fun e => (e.1 : ℤ))).tail.zipWith (fun a b => a - b)
    (peak_ind.map (fun e => (e.2 : ℤ))).dropLast

/-- Embedding of `split_peak_ind_by_space(peak_ind)`. -/
def split_peak_ind_by_space (peak_ind : List (Nat × Nat)) : List (Nat × Nat) × List (Nat × Nat) :=
  if peak_ind.length = 1 then (peak_ind, peak_ind)
  else
    let split_i := argmaxList (spacingOf peak_ind)
    (peak_ind.take (split_i + 1), peak_ind.drop (split_i + 1))

theorem argmaxAux_lt (t : List ℤ) : ∀ best bestv i, best < i →
    argmaxAux best bestv i t < i + t.length := by
  induction t with
  | nil => intro best bestv i h; simpa [argmaxAux] using h
  | cons x t ih =>
    intro best bestv i h
    simp only [argmaxAux, List.length_cons]
    by_cases hx : bestv < x
    · simp only [hx, if_true]
      have := ih i x (i + 1) (Nat.lt_succ_self i)
      omega
    · simp only [hx, if_false]
      have := ih best bestv (i + 1) (Nat.lt_succ_of_lt h)
      omega

theorem argmaxList_lt (l : List ℤ) (h : l ≠ []) : argmaxList l < l.length := by
  cases l with
  | nil => exact absurd rfl h
  | cons x t =>
    have := argmaxAux_lt t 0 x 1 Nat.zero_lt_one
    simp only [argmaxList, List.length_cons]
    omega

theorem spacingOf_length (l : List (Nat × Nat)) : (spacingOf l).length = l.length - 1 := by
  simp [spacingOf]

/-- On a list of length at least 2, both halves of the split are nonempty and
strictly shorter than the input. -/
theorem split_peak_ind_parts (l : List (Nat × Nat)) (h2 : 2 ≤ l.length) :
    (split_peak_ind_by_space l).1 ≠ [] ∧ (split_peak_ind_by_space l).2 ≠ [] ∧
    (split_peak_ind_by_space l).1.length < l.length ∧
    (split_peak_ind_by_space l).2.length < l.length := by
  have hne1 : l.length ≠ 1 := by omega
  have hsp : spacingOf l ≠ [] := by
    intro h
    have := congrArg List.length h
    rw [spacingOf_length] at this
    simp at this
    omega
  have hargs : argmaxList (spacingOf l) < l.length - 1 := by
    have := argmaxList_lt _ hsp
    rwa [spacingOf_length] at this
  simp only [split_peak_ind_by_space, hne1, if_false]
  refine ⟨?_, ?_, ?_, ?_⟩
  · intro h
    have := congrArg List.length h
    simp only [List.length_take, List.length_nil] at this
    omega
  · intro h
    have := congrArg List.length h
    simp only [List.length_drop, List.length_nil] at this
    omega
  · simp only [List.length_take]
    omega
  · simp only [List.length_drop]
    omega

theorem split_peak_ind_singleton (p : Nat × Nat) :
    split_peak_ind_by_space [p] = ([p], [p]) := by
  simp [split_peak_ind_by_space]

theorem split_peak_ind_ne_lengths (l : List (Nat × Nat))
    (h : (split_peak_ind_by_space l).1 ≠ (split_peak_ind_by_space l).2) :
    (split_peak_ind_by_space l).1.length < l.length ∧
    (split_peak_ind_by_space l).2.length < l.length := by
  match l with
  | [] =>
    exfalso
    exact h (by rfl)
  | [p] =>
    exfalso
    rw [split_peak_ind_singleton] at h
    exact h rfl
  | a :: b :: t =>
    have h2 : 2 ≤ (a :: b :: t).length := by simp
    have hp := split_peak_ind_parts _ h2
    exact ⟨hp.2.2.1, hp.2.2.2⟩

/-- Embedding of the generator `peak_pairs_to_call(peak_ind)` as the list of yielded
pairs, in yield order. Termination follows from `split_peak_ind_ne_lengths`.
(Python raises on the empty input, which no caller produces; here the empty
input yields no pairs.) -/
def peak_pairs_to_call (peak_ind : List (Nat × Nat)) : List ((Nat × Nat) × (Nat × Nat)) :=
  let lr := split_peak_ind_by_space peak_ind
  if h : lr.1 = lr.2 then []
  else
    (((lr.1.headD (0, 0)).1, (lr.1.getLastD (0, 0)).2),
     ((lr.2.headD (0, 0)).1, (lr.2.getLastD (0, 0)).2)) ::
      (peak_pairs_to_call lr.1 ++ peak_pairs_to_call lr.2)
termination_by peak_ind.length
decreasing_by
  · exact (split_peak_ind_ne_lengths peak_ind h).1
  · exact (split_peak_ind_ne_lengths peak_ind h).2

/-! ## the Node tree and its two insertion operations -/

/-- Embedding of the `Node` class: bounds, captured spectrum chunk, separating
threshold, level and the (mutable, here functional) child list. The prominence
filter `prom_filter` is the constant `1.0` dB and is folded into `lin2z_gt_prom`. -/
inductive Node : Type where
  | mk (bounds : Nat × Nat) (spec : List ℚ) (threshold : ℚ) (level : Nat) (children : List Node)

def Node.bounds : Node → Nat × Nat
  | .mk b _ _ _ _ => b

def Node.spec : Node → List ℚ
  | .mk _ s _ _ _ => s

def Node.threshold : Node → ℚ
  | .mk _ _ t _ _ => t

def Node.level : Node → Nat
  | .mk _ _ _ l _ => l

def Node.children : Node → List Node
  | .mk _ _ _ _ c => c

/-- The filter `x.bounds[0] <= bounds_left[0] and x.bounds[1] >= bounds_right[1]`
of `add_noise_sep`. -/
def fits_noise_sep (bounds_left bounds_right : Nat × Nat) (c : Node) : Bool :=
  decide (c.bounds.1 ≤ bounds_left.1) && decide (bounds_right.2 ≤ c.bounds.2)

/-- The filter `x.bounds[0] <= new_index and x.bounds[1] >= new_index` of `add_min`. -/
def fits_min (new_index : Nat) (c : Node) : Bool :=
  decide (c.bounds.1 ≤ new_index) && decide (new_index ≤ c.bounds.2)

mutual
/-- Embedding of `Node.add_noise_sep(bounds_left, bounds_right, thres)`. Returns the
updated tree and a flag recording whether the call raised (`np.argmax` of an
empty slice is the only raise site; the tree is unchanged in that case). -/
def add_noise_sep : Node → (Nat × Nat) → (Nat × Nat) → ℚ → Node × Bool
  | Node.mk b spec th lvl children, bl, br, thres =>
    if (children.filter (fits_noise_sep bl br)).length = 1 then
      let res := add_noise_sep_children children bl br thres
      (Node.mk b spec th lvl res.1, res.2)
    else
      let spec_left := pyslice spec (bl.1 - b.1) (bl.2 + 1 - b.1)
      let spec_right := pyslice spec (br.1 - b.1) (br.2 + 1 - b.1)
      if spec_left.isEmpty || spec_right.isEmpty then
        (Node.mk b spec th lvl children, true)
      else
        let prom_left := fdiv (listMaxD spec_left) thres
        let prom_right := fdiv (listMaxD spec_right) thres
        if lin2z_gt_prom prom_left && lin2z_gt_prom prom_right then
          (Node.mk b spec th lvl (children ++
            [Node.mk bl spec_left thres (lvl + 1) [],
             Node.mk br spec_right thres (lvl + 1) []]), false)
        else
          (Node.mk b spec th lvl children, false)

/-- In-place recursion of `add_noise_sep` into the unique fitting child
(`fitting_child[0].add_noise_sep(...)`), expressed as a rebuild of the child list. -/
def add_noise_sep_children : List Node → (Nat × Nat) → (Nat × Nat) → ℚ → List Node × Bool
  | [], _, _, _ => ([], false)
  | c :: cs, bl, br, thres =>
    let hd := if fits_noise_sep bl br c then add_noise_sep c bl br thres else (c, false)
    let tl := add_noise_sep_children cs bl br thres
    (hd.1 :: tl.1, hd.2 || tl.2)
end

mutual
/-- Embedding of `Node.add_min(new_index, current_thres, ignore_prom)`. Returns the
updated tree and a flag recording whether the call raised: the `ValueError`
when `new_index` is outside the node bounds, or `np.argmax` of an empty slice.
The tree is unchanged whenever the flag is set. -/
def add_min : Node → Nat → ℚ → Bool → Node × Bool
  | Node.mk b spec th lvl children, new_index, thres, ignore_prom =>
    if new_index < b.1 || b.2 < new_index then
      (Node.mk b spec th lvl children, true)
    else if (children.filter (fits_min new_index)).length = 1 then
      let res := add_min_children children new_index thres
      (Node.mk b spec th lvl res.1, res.2)
    else
      let spec_left := spec.take (new_index + 1 - b.1)
      let spec_right := spec.drop (new_index - b.1)
      if spec_left.isEmpty || spec_right.isEmpty then
        (Node.mk b spec th lvl children, true)
      else
        let prom_left := fdiv (listMaxD spec_left) thres
        let prom_right := fdiv (listMaxD spec_right) thres
        if (lin2z_gt_prom prom_left && lin2z_gt_prom prom_right) || ignore_prom then
          (Node.mk b spec th lvl (children ++
            [Node.mk (b.1, new_index) spec_left thres (lvl + 1) [],
             Node.mk (new_index, b.2) spec_right thres (lvl + 1) []]), false)
        else
          (Node.mk b spec th lvl children, false)

/-- In-place recursion of `add_min` into the unique fitting child
(`fitting_child[0].add_min(new_index, current_thres)`, with the default
`ignore_prom=False`), expressed as a rebuild of the child list. -/
def add_min_children : List Node → Nat → ℚ → List Node × Bool
  | [], _, _ => ([], false)
  | c :: cs, new_index, thres =>
    let hd := if fits_min new_index c then add_min c new_index thres false else (c, false)
    let tl := add_min_children cs new_index thres
    (hd.1 :: tl.1, hd.2 || tl.2)
end

/-- One tree-building call, as issued by `tree_from_spectrum` on the root. -/
inductive Op : Type where
  | noiseSep (bounds_left bounds_right : Nat × Nat) (thres : ℚ)
  | minSplit (new_index : Nat) (thres : ℚ)

def applyOp (n : Node) : Op → Node
  | .noiseSep bl br th => (add_noise_sep n bl br th).1
  | .minSplit m th => (add_min n m th false).1

/-- The tree reachable from `root` by the given sequence of
`add_noise_sep` / `add_min` calls. -/
def buildTree (root : Node) (ops : List Op) : Node := ops.foldl applyOp root

/-! ## structural predicates on trees -/

mutual
/-- Every node of the tree has either 0 or exactly 2 children (the property
claimed by the spec). -/
def arity02 : Node → Bool
  | .mk _ _ _ _ children =>
    (decide (children.length = 0) || decide (children.length = 2)) && arity02L children

def arity02L : List Node → Bool
  | [] => true
  | c :: cs => arity02 c && arity02L cs
end

mutual
/-- Every node of the tree has an even number of children. -/
def arityEven : Node → Bool
  | .mk _ _ _ _ children => decide (children.length % 2 = 0) && arityEvenL children

def arityEvenL : List Node → Bool
  | [] => true
  | c :: cs => arityEven c && arityEvenL cs
end

mutual
/-- Every child interval is contained in its parent's and strictly narrower
(the property claimed by the spec: `p.l ≤ c.l`, `c.r ≤ p.r`,
`c.r - c.l < p.r - p.l`). -/
def containStrict : Node → Bool
  | .mk b _ _ _ children => containStrictL b children

def containStrictL : Nat × Nat → List Node → Bool
  | _, [] => true
  | b, c :: cs =>
    (decide (b.1 ≤ c.bounds.1) && decide (c.bounds.2 ≤ b.2) &&
     decide ((c.bounds.2 : ℤ) - (c.bounds.1 : ℤ) < (b.2 : ℤ) - (b.1 : ℤ))) &&
    containStrict c && containStrictL b cs
end

mutual
/-- Every child interval is contained in its parent's and at most as wide. -/
def containOk : Node → Bool
  | .mk b _ _ _ children => containOkL b children

def containOkL : Nat × Nat → List Node → Bool
  | _, [] => true
  | b, c :: cs =>
    (decide (b.1 ≤ c.bounds.1) && decide (c.bounds.2 ≤ b.2) &&
     decide ((c.bounds.2 : ℤ) - (c.bounds.1 : ℤ) ≤ (b.2 : ℤ) - (b.1 : ℤ))) &&
    containOk c && containOkL b cs
end

/-! ## traversal and level-order id assignment -/

/-- Embedding of `full_tree_id(coord)`: the level-order id in the implicit full
binary tree. -/
def full_tree_id (coord : List Nat) : Nat :=
  coord.reverse.enum.foldl
    (fun idx p => if p.2 = 1 then idx + 2 ^ p.1 else idx)
    (2 ^ (coord.length - 1) - 1)

/-- One record yielded by `traverse`: coordinates, bounds and threshold. -/
structure TravRec where
  coords : List Nat
  bounds : Nat × Nat
  thres : ℚ
deriving DecidableEq

mutual
/-- Embedding of the generator `traverse(Node, coords)`: pre-order stream of
records. -/
def traverseN : Node → List Nat → List TravRec
  | .mk b _ th _ children, coords => ⟨coords, b, th⟩ :: traverseL children coords 0

/-- The loop `for i, n in enumerate(Node.children): yield from traverse(n, coords + [i])`. -/
def traverseL : List Node → List Nat → Nat → List TravRec
  | [], _, _ => []
  | c :: cs, coords, i => traverseN c (coords ++ [i]) ++ traverseL cs coords (i + 1)
end

/-- A traversed node after id assignment (`coords_to_id`); moment fields, which are
attached later and do not change the key set, are not modelled. -/
structure TravNode where
  coords : List Nat
  bounds : Nat × Nat
  thres : ℚ
  parent_id : Int
deriving DecidableEq

/-- Python dict assignment `d[k] = v` on an association list that keeps insertion
order (Python 3.7 dict semantics). -/
def dictSet (d : List (Nat × TravNode)) (k : Nat) (v : TravNode) : List (Nat × TravNode) :=
  if d.any (fun e => e.1 = k) then d.map (fun e => if e.1 = k then (k, v) else e)
  else d ++ [(k, v)]

/-- Embedding of `coords_to_id(traversed)`: assign `full_tree_id` keys and resolve
each node's parent id by searching for the coordinate prefix. -/
def coords_to_id (traversed : List TravRec) : List (Nat × TravNode) :=
  traversed.foldl
    (fun acc node =>
      let k := full_tree_id node.coords
      let acc1 := dictSet acc k ⟨node.coords, node.bounds, node.thres, -1⟩
      let parent := (acc1.filter (fun e => e.2.coords = node.coords.dropLast)).map (fun e => e.1)
      let pid : Int := if parent.length = 1 then (parent.headD 0 : Int) else -1
      dictSet acc1 k ⟨node.coords, node.bounds, node.thres, pid⟩)
    []

/-! ## tree_from_spectrum -/

/-- The spectrum fields consumed by the structural part of `tree_from_spectrum`. -/
structure Spectrum where
  specZ : List ℚ
  specZ_mask : List Bool
  noise_thres : ℚ

/-- Embedding of `tree_from_spectrum(spectrum)` up to id assignment: peak
detection, the single-bin-width filter, root construction, noise-separation
splits, local-minimum splits and traversal. The per-node moment computation
(`calc_moments`), which only updates the values of the traversal and never its
key set, is not modelled; the unreachable `len(peak_ind) == 0` inner branch
(dead code, spec section 9) is subsumed by the empty match arm. -/
def tree_from_spectrum (s : Spectrum) : List (Nat × TravNode) :=
  let masked_Z := fill_with s.specZ s.specZ_mask 0
  let peak_ind := (detect_peak_simple masked_Z s.noise_thres).filter
    (fun e => decide (0 < e.2 - e.1))
  match peak_ind with
  | [] => []
  | p0 :: rest =>
    let pl := (p0 :: rest).getLastD p0
    let t := Node.mk (p0.1, pl.2) (pyslice s.specZ p0.1 (pl.2 + 1)) s.noise_thres 0 []
    let t := (peak_pairs_to_call (p0 :: rest)).foldl
      (fun t pr => (add_noise_sep t pr.1 pr.2 s.noise_thres).1) t
    let minima := get_minima (fill_with masked_Z
      (masked_Z.map (fun z => decide (z < s.noise_thres * (11 / 10)))) (1 / 10 ^ 30))
    let t := minima.foldl
      (fun t m => if s.noise_thres * (11 / 10) < m.2 then (add_min t m.1 m.2 false).1 else t) t
    coords_to_id (traverseN t [0])

/-! ## spectrum preparation fragments (get_tree_at) -/

/-- The bins of `specZ` selected by `specZ[~specZ_mask]`. -/
def unmaskedBins (specZ : List ℚ) (mask : List Bool) : List ℚ :=
  ((specZ.zip mask).filter (fun p => !p.2)).map (fun p => p.1)

/-- Embedding of the noise-threshold line of `get_tree_at`:
`1e-25 if np.all(specZ_mask) else specZ[~specZ_mask].min() * h.z2lin(thres_factor_co)`.
Modelled from the spec: `h.z2lin` (helpers are not among the sources) converts the
configured dB value to a linear factor; it enters here as the already-converted
linear multiplier `thres_factor_lin`. -/
def noise_thres_of (specZ : List ℚ) (specZ_mask : List Bool) (thres_factor_lin : ℚ) : ℚ :=
  if specZ_mask.all (fun b => b) then 1 / 10 ^ 25
  else listMinD (unmaskedBins specZ specZ_mask) * thres_factor_lin

/-- numpy fancy assignment `arr[mask] = 0.0` on a copy. -/
def zeroWhere (arr : List ℚ) (mask : List Bool) : List ℚ :=
  arr.zipWith (fun z m => if m then 0 else z) mask

/-- Embedding of the `specZ_validcx` / `specZcx_validcx` preparation
(`get_tree_at`, lines 761-764): `specZcx_validcx` is a copy of `specZcx` zeroed at
`Zcx_mask`; the following statement zeroes `specZcx_validcx` a second time (the
textual behaviour of the source), so `specZ_validcx` stays an unmodified copy of
`specZ`. Returns `(specZ_validcx, specZcx_validcx)`. -/
def validcx_arrays (specZ specZcx : List ℚ) (Zcx_mask : List Bool) : List ℚ × List ℚ :=
  let specZcx_validcx := zeroWhere specZcx Zcx_mask
  let specZ_validcx := specZ
  let specZcx_validcx := zeroWhere specZcx_validcx Zcx_mask
  (specZ_validcx, specZcx_validcx)

/-! ## the ldr computation of calc_moments -/

/-- Python slice `arr[bounds[0] : bounds[1]+1]`. -/
def boundsSlice (arr : List ℚ) (bounds : Nat × Nat) : List ℚ :=
  pyslice arr bounds.1 (bounds.2 + 1)

/-- numpy `np.allclose(x, 0.0)` with the default tolerances
(`atol = 1e-8`, and `rtol` contributes nothing against 0). -/
def np_allclose_zero (x : ℚ) : Bool := decide (|x| ≤ 1 / 10 ^ 8)

/-- Embedding of the `ldr2` computation of `calc_moments` (lines 321-324): the
sum-ratio over the node bounds when some `specZcx` bin is valid anywhere, `NaN`
(modelled as `none`, as is an infinite or `NaN` quotient) otherwise. -/
def ldr2_of (specZcx_mask : List Bool) (specZcx_validcx specZ_validcx : List ℚ)
    (bounds : Nat × Nat) : Option ℚ :=
  if specZcx_mask.all (fun b => b) then none
  else
    let num := (boundsSlice specZcx_validcx bounds).sum
    let den := (boundsSlice specZ_validcx bounds).sum
    if den = 0 then none else some (num / den)

/-- Embedding of the final `ldr` assignment of `calc_moments` (line 334):
`ldr2 if (np.isfinite(ldr2) and not np.allclose(ldr2, 0.0)) else np.nan`. -/
def moments_ldr (specZcx_mask : List Bool) (specZcx_validcx specZ_validcx : List ℚ)
    (bounds : Nat × Nat) : Option ℚ :=
  match ldr2_of specZcx_mask specZcx_validcx specZ_validcx bounds with
  | none => none
  | some v => if np_allclose_zero v then none else some v

/-! ## per-cell packing of assemble_time_height -/

/-- Embedding of the per-cell packing step of `assemble_time_height`
(lines 862-880) for one generic per-slot field: slot arrays are prefilled with
`-999`, `no_nodes` records the number of traversed ids, and only ids below
`max_no_nodes` are written. -/
def pack_cell (travtree : List (Nat × TravNode)) (max_no_nodes : Nat)
    (field : TravNode → ℚ) : Nat × (Nat → ℚ) :=
  let node_ids := travtree.map (fun e => e.1)
  let nodes_to_save := node_ids.filter (fun i => decide (i < max_no_nodes))
  let slots : Nat → ℚ := fun _ => -999
  let slots := nodes_to_save.foldl
    (fun s k =>
      match (travtree.find? (fun e => e.1 = k)).map (fun e => e.2) with
      | some v => fun j => if j = k then field v else s j
      | none => s)
    slots
  (node_ids.length, slots)

mutual
/-- Consistency of a node as built by the program: ordered bounds and a spectrum
chunk of matching length, recursively. -/
def wfNode : Node → Bool
  | .mk b spec _ _ children =>
    decide (b.1 ≤ b.2) && decide (spec.length = b.2 + 1 - b.1) && wfNodeL children

def wfNodeL : List Node → Bool
  | [] => true
  | c :: cs => wfNode c && wfNodeL cs
end

/-! ## C1: the full-tree id formula -/

theorem foldl_enumFrom_pow (l : List Nat) : ∀ j init : Nat,
    (List.enumFrom j l).foldl (fun idx p => if p.2 = 1 then idx + 2 ^ p.1 else idx) init
      = init + ∑ k ∈ Finset.range l.length, (if l.getD k 0 = 1 then 2 ^ (j + k) else 0) := by
  induction l with
  | nil => simp
  | cons a t ih =>
    intro j init
    simp only [List.enumFrom, List.foldl_cons, List.length_cons]
    rw [ih (j + 1), Finset.sum_range_succ']
    have hsum : ∑ k ∈ Finset.range t.length, (if t.getD k 0 = 1 then 2 ^ (j + 1 + k) else 0)
        = ∑ k ∈ Finset.range t.length,
            (if (a :: t).getD (k + 1) 0 = 1 then 2 ^ (j + (k + 1)) else 0) := by
      refine Finset.sum_congr rfl fun k _ => ?_
      rw [List.getD_cons_succ, show j + 1 + k = j + (k + 1) from by omega]
    rw [hsum]
    by_cases ha : a = 1 <;> simp [ha] <;> omega

/-- C1: for every coordinate list of length n greater than 0 with entries in
{0, 1}, `full_tree_id` returns `2^(n-1) - 1` plus the sum over `k < n` of
`coord[n-1-k] * 2^k`; in particular `full_tree_id [0] = 0`,
`full_tree_id [0,1] = 2`, `full_tree_id [0,0,0] = 3`, and
`full_tree_id [0,1,1,0] = 13`. -/
theorem C1_full_tree_id (coord : List Nat) (h1 : 0 < coord.length)
    (h2 : ∀ x ∈ coord, x = 0 ∨ x = 1) :
    (full_tree_id coord = 2 ^ (coord.length - 1) - 1 +
      ∑ k ∈ Finset.range coord.length, coord.getD (coord.length - 1 - k) 0 * 2 ^ k) ∧
    full_tree_id [0] = 0 ∧ full_tree_id [0, 1] = 2 ∧
    full_tree_id [0, 0, 0] = 3 ∧ full_tree_id [0, 1, 1, 0] = 13 := by
  refine ⟨?_, by decide, by decide, by decide, by decide⟩
  show (List.enumFrom 0 coord.reverse).foldl _ _ = _
  rw [foldl_enumFrom_pow]
  rw [List.length_reverse]
  have hsum : ∑ k ∈ Finset.range coord.length,
      (if coord.reverse.getD k 0 = 1 then 2 ^ (0 + k) else 0)
      = ∑ k ∈ Finset.range coord.length, coord.getD (coord.length - 1 - k) 0 * 2 ^ k := by
    refine Finset.sum_congr rfl fun k hk => ?_
    rw [Finset.mem_range] at hk
    have hk' : k < coord.reverse.length := by simpa using hk
    rw [List.getD_eq_getElem _ _ hk', List.getElem_reverse,
      ← List.getD_eq_getElem _ 0 (show coord.length - 1 - k < coord.length from by omega),
      Nat.zero_add]
    have hmem : coord.getD (coord.length - 1 - k) 0 ∈ coord := by
      rw [List.getD_eq_getElem _ 0 (by omega : coord.length - 1 - k < coord.length)]
      exact List.getElem_mem _
    rcases h2 _ hmem with h0 | h0 <;> rw [h0] <;> simp
  rw [hsum]

theorem C1_full_tree_id_witness :
    (full_tree_id [0, 1, 1, 0] = 2 ^ (([0, 1, 1, 0] : List Nat).length - 1) - 1 +
      ∑ k ∈ Finset.range ([0, 1, 1, 0] : List Nat).length,
        ([0, 1, 1, 0] : List Nat).getD (([0, 1, 1, 0] : List Nat).length - 1 - k) 0 * 2 ^ k) ∧
    full_tree_id [0] = 0 :=
  ⟨(C1_full_tree_id [0, 1, 1, 0] (by decide) (by decide)).1,
   (C1_full_tree_id [0, 1, 1, 0] (by decide) (by decide)).2.1⟩

/-! ## C2, C3, C4: tree construction invariants -/

theorem add_min_shape (b : Nat × Nat) (spec : List ℚ) (th : ℚ) (lvl : Nat) (children : List Node)
    (m : Nat) (thres : ℚ) (ip : Bool) :
    ∃ cs', (add_min (Node.mk b spec th lvl children) m thres ip).1 = Node.mk b spec th lvl cs' ∧
      (cs' = children ∨
       cs' = (add_min_children children m thres).1 ∨
       (b.1 ≤ m ∧ m ≤ b.2 ∧ ∃ sl sr, cs' = children ++
          [Node.mk (b.1, m) sl thres (lvl + 1) [], Node.mk (m, b.2) sr thres (lvl + 1) []])) := by
  simp only [add_min]
  split
  · exact ⟨children, rfl, Or.inl rfl⟩
  · next hout =>
    simp only [Bool.or_eq_true, decide_eq_true_eq, not_or, Nat.not_lt] at hout
    split
    · exact ⟨_, rfl, Or.inr (Or.inl rfl)⟩
    · split
      · exact ⟨children, rfl, Or.inl rfl⟩
      · split
        · refine ⟨_, rfl, Or.inr (Or.inr ⟨?_, ?_, _, _, rfl⟩)⟩ <;> omega
        · exact ⟨children, rfl, Or.inl rfl⟩

theorem add_noise_sep_shape (b : Nat × Nat) (spec : List ℚ) (th : ℚ) (lvl : Nat)
    (children : List Node) (bl br : Nat × Nat) (thres : ℚ) :
    ∃ cs', (add_noise_sep (Node.mk b spec th lvl children) bl br thres).1
        = Node.mk b spec th lvl cs' ∧
      (cs' = children ∨
       cs' = (add_noise_sep_children children bl br thres).1 ∨
       ∃ sl sr, cs' = children ++
          [Node.mk bl sl thres (lvl + 1) [], Node.mk br sr thres (lvl + 1) []]) := by
  simp only [add_noise_sep]
  split
  · exact ⟨_, rfl, Or.inr (Or.inl rfl)⟩
  · split
    · exact ⟨children, rfl, Or.inl rfl⟩
    · split
      · exact ⟨_, rfl, Or.inr (Or.inr ⟨_, _, rfl⟩)⟩
      · exact ⟨children, rfl, Or.inl rfl⟩

theorem add_min_children_length (cs : List Node) (m : Nat) (th : ℚ) :
    (add_min_children cs m th).1.length = cs.length := by
  induction cs with
  | nil => simp [add_min_children]
  | cons c cs ih => simp [add_min_children, ih]

theorem add_noise_sep_children_length (cs : List Node) (bl br : Nat × Nat) (th : ℚ) :
    (add_noise_sep_children cs bl br th).1.length = cs.length := by
  induction cs with
  | nil => simp [add_noise_sep_children]
  | cons c cs ih => simp [add_noise_sep_children, ih]

theorem arityEvenL_append (xs ys : List Node) :
    arityEvenL (xs ++ ys) = (arityEvenL xs && arityEvenL ys) := by
  induction xs with
  | nil => simp [arityEvenL]
  | cons c cs ih => simp [arityEvenL, ih, Bool.and_assoc]

theorem node_sizeOf_children (b : Nat × Nat) (spec : List ℚ) (th : ℚ) (lvl : Nat)
    (children : List Node) :
    sizeOf children < sizeOf (Node.mk b spec th lvl children) := by
  simp [Node.mk.sizeOf_spec]

theorem arityEven_add_min_strong : ∀ k : Nat,
    (∀ n : Node, sizeOf n ≤ k → ∀ m th ip,
      arityEven n = true → arityEven (add_min n m th ip).1 = true) ∧
    (∀ cs : List Node, sizeOf cs ≤ k → ∀ m th,
      arityEvenL cs = true → arityEvenL (add_min_children cs m th).1 = true) := by
  intro k
  induction k with
  | zero =>
    constructor
    · intro n hn
      exfalso
      cases n with
      | mk b spec th lvl children => simp [Node.mk.sizeOf_spec] at hn
    · intro cs hcs
      exfalso
      cases cs with
      | nil => simp at hcs
      | cons c cs => simp at hcs
  | succ k ih =>
    constructor
    · intro n hn m th ip h
      cases n with
      | mk b spec thr lvl children =>
        obtain ⟨cs', heq, hcase⟩ := add_min_shape b spec thr lvl children m th ip
        rw [heq]
        simp only [arityEven, Bool.and_eq_true, decide_eq_true_eq] at h ⊢
        have hsz : sizeOf children ≤ k := by
          have := node_sizeOf_children b spec thr lvl children
          omega
        rcases hcase with hc | hc | ⟨hbm, hmb, sl, sr, hc⟩
        · rw [hc]; exact h
        · rw [hc]
          rw [add_min_children_length]
          exact ⟨h.1, ih.2 children hsz m th h.2⟩
        · rw [hc]
          constructor
          · simp; omega
          · rw [arityEvenL_append]
            simp only [Bool.and_eq_true]
            refine ⟨h.2, ?_⟩
            simp [arityEvenL, arityEven]
    · intro cs hcs m th h
      cases cs with
      | nil => simpa [add_min_children] using h
      | cons c cs =>
        simp only [add_min_children]
        simp only [arityEvenL, Bool.and_eq_true] at h ⊢
        have hszc : sizeOf c ≤ k := by simp at hcs; omega
        have hszcs : sizeOf cs ≤ k := by simp at hcs; omega
        constructor
        · split
          · exact ih.1 c hszc m th false h.1
          · exact h.1
        · exact ih.2 cs hszcs m th h.2



theorem arityEven_add_noise_sep_strong : ∀ k : Nat,
    (∀ n : Node, sizeOf n ≤ k → ∀ bl br th,
      arityEven n = true → arityEven (add_noise_sep n bl br th).1 = true) ∧
    (∀ cs : List Node, sizeOf cs ≤ k → ∀ bl br th,
      arityEvenL cs = true → arityEvenL (add_noise_sep_children cs bl br th).1 = true) := by
  intro k
  induction k with
  | zero =>
    constructor
    · intro n hn
      exfalso
      cases n with
      | mk b spec th lvl children => simp [Node.mk.sizeOf_spec] at hn
    · intro cs hcs
      exfalso
      cases cs with
      | nil => simp at hcs
      | cons c cs => simp at hcs
  | succ k ih =>
    constructor
    · intro n hn bl br th h
      cases n with
      | mk b spec thr lvl children =>
        obtain ⟨cs', heq, hcase⟩ := add_noise_sep_shape b spec thr lvl children bl br th
        rw [heq]
        simp only [arityEven, Bool.and_eq_true, decide_eq_true_eq] at h ⊢
        have hsz : sizeOf children ≤ k := by
          have := node_sizeOf_children b spec thr lvl children
          omega
        rcases hcase with hc | hc | ⟨sl, sr, hc⟩
        · rw [hc]; exact h
        · rw [hc, add_noise_sep_children_length]
          exact ⟨h.1, ih.2 children hsz bl br th h.2⟩
        · rw [hc]
          constructor
          · simp; omega
          · rw [arityEvenL_append]
            simp only [Bool.and_eq_true]
            exact ⟨h.2, by simp [arityEvenL, arityEven]⟩
    · intro cs hcs bl br th h
      cases cs with
      | nil => simpa [add_noise_sep_children] using h
      | cons c cs =>
        simp only [add_noise_sep_children]
        simp only [arityEvenL, Bool.and_eq_true] at h ⊢
        have hszc : sizeOf c ≤ k := by simp at hcs; omega
        have hszcs : sizeOf cs ≤ k := by simp at hcs; omega
        constructor
        · split
          · exact ih.1 c hszc bl br th h.1
          · exact h.1
        · exact ih.2 cs hszcs bl br th h.2

theorem arityEven_applyOp (n : Node) (op : Op) (h : arityEven n = true) :
    arityEven (applyOp n op) = true := by
  cases op with
  | noiseSep bl br th =>
    exact (arityEven_add_noise_sep_strong (sizeOf n)).1 n le_rfl bl br th h
  | minSplit m th =>
    exact (arityEven_add_min_strong (sizeOf n)).1 n le_rfl m th false h

theorem arityEven_buildTree : ∀ ops : List Op, ∀ n : Node,
    arityEven n = true → arityEven (buildTree n ops) = true := by
  intro ops
  induction ops with
  | nil => intro n h; simpa [buildTree] using h
  | cons op ops ih =>
    intro n h
    have : buildTree n (op :: ops) = buildTree (applyOp n op) ops := rfl
    rw [this]
    exact ih _ (arityEven_applyOp n op h)



theorem add_min_bounds_eq (n : Node) (m : Nat) (th : ℚ) (ip : Bool) :
    ((add_min n m th ip).1).bounds = n.bounds := by
  cases n with
  | mk b spec thr lvl children =>
    obtain ⟨cs', heq, _⟩ := add_min_shape b spec thr lvl children m th ip
    rw [heq]
    rfl

theorem add_noise_sep_bounds_eq (n : Node) (bl br : Nat × Nat) (th : ℚ) :
    ((add_noise_sep n bl br th).1).bounds = n.bounds := by
  cases n with
  | mk b spec thr lvl children =>
    obtain ⟨cs', heq, _⟩ := add_noise_sep_shape b spec thr lvl children bl br th
    rw [heq]
    rfl

theorem containOkL_append (b : Nat × Nat) (xs ys : List Node) :
    containOkL b (xs ++ ys) = (containOkL b xs && containOkL b ys) := by
  induction xs with
  | nil => simp [containOkL]
  | cons c cs ih => simp [containOkL, ih, Bool.and_assoc]

theorem containOk_add_min_strong : ∀ k : Nat,
    (∀ n : Node, sizeOf n ≤ k → ∀ m th ip,
      containOk n = true → containOk (add_min n m th ip).1 = true) ∧
    (∀ cs : List Node, sizeOf cs ≤ k → ∀ b m th,
      containOkL b cs = true → containOkL b (add_min_children cs m th).1 = true) := by
  intro k
  induction k with
  | zero =>
    constructor
    · intro n hn
      exfalso
      cases n with
      | mk b spec th lvl children => simp [Node.mk.sizeOf_spec] at hn
    · intro cs hcs
      exfalso
      cases cs with
      | nil => simp at hcs
      | cons c cs => simp at hcs
  | succ k ih =>
    constructor
    · intro n hn m th ip h
      cases n with
      | mk b spec thr lvl children =>
        obtain ⟨cs', heq, hcase⟩ := add_min_shape b spec thr lvl children m th ip
        rw [heq]
        simp only [containOk] at h ⊢
        have hsz : sizeOf children ≤ k := by
          have := node_sizeOf_children b spec thr lvl children
          omega
        rcases hcase with hc | hc | ⟨hbm, hmb, sl, sr, hc⟩
        · rw [hc]; exact h
        · rw [hc]
          exact ih.2 children hsz b m th h
        · rw [hc, containOkL_append]
          simp only [Bool.and_eq_true]
          refine ⟨h, ?_⟩
          simp only [containOkL, containOk, Node.bounds, Bool.and_eq_true, decide_eq_true_eq,
            and_true]
          omega
    · intro cs hcs b m th h
      cases cs with
      | nil => simpa [add_min_children] using h
      | cons c cs =>
        simp only [add_min_children]
        simp only [containOkL, Bool.and_eq_true] at h ⊢
        have hszc : sizeOf c ≤ k := by simp at hcs; omega
        have hszcs : sizeOf cs ≤ k := by simp at hcs; omega
        obtain ⟨⟨hb, hcok⟩, hrest⟩ := h
        refine ⟨⟨?_, ?_⟩, ih.2 cs hszcs b m th hrest⟩
        · split
          · rw [add_min_bounds_eq]; exact hb
          · exact hb
        · split
          · exact ih.1 c hszc m th false hcok
          · exact hcok

theorem containOk_add_noise_sep_strong : ∀ k : Nat,
    (∀ n : Node, sizeOf n ≤ k → ∀ bl br th, containOk n = true →
      n.bounds.1 ≤ bl.1 → bl.1 ≤ br.1 → bl.2 ≤ br.2 → br.2 ≤ n.bounds.2 →
      containOk (add_noise_sep n bl br th).1 = true) ∧
    (∀ cs : List Node, sizeOf cs ≤ k → ∀ b bl br th, containOkL b cs = true →
      bl.1 ≤ br.1 → bl.2 ≤ br.2 →
      containOkL b (add_noise_sep_children cs bl br th).1 = true) := by
  intro k
  induction k with
  | zero =>
    constructor
    · intro n hn
      exfalso
      cases n with
      | mk b spec th lvl children => simp [Node.mk.sizeOf_spec] at hn
    · intro cs hcs
      exfalso
      cases cs with
      | nil => simp at hcs
      | cons c cs => simp at hcs
  | succ k ih =>
    constructor
    · intro n hn bl br th h h1 h2 h3 h4
      cases n with
      | mk b spec thr lvl children =>
        obtain ⟨cs', heq, hcase⟩ := add_noise_sep_shape b spec thr lvl children bl br th
        rw [heq]
        simp only [containOk] at h ⊢
        simp only [Node.bounds] at h1 h4
        have hsz : sizeOf children ≤ k := by
          have := node_sizeOf_children b spec thr lvl children
          omega
        rcases hcase with hc | hc | ⟨sl, sr, hc⟩
        · rw [hc]; exact h
        · rw [hc]
          exact ih.2 children hsz b bl br th h h2 h3
        · rw [hc, containOkL_append]
          simp only [Bool.and_eq_true]
          refine ⟨h, ?_⟩
          simp only [containOkL, containOk, Node.bounds, Bool.and_eq_true, decide_eq_true_eq,
            and_true]
          omega
    · intro cs hcs b bl br th h h2 h3
      cases cs with
      | nil => simpa [add_noise_sep_children] using h
      | cons c cs =>
        simp only [add_noise_sep_children]
        simp only [containOkL, Bool.and_eq_true] at h ⊢
        have hszc : sizeOf c ≤ k := by simp at hcs; omega
        have hszcs : sizeOf cs ≤ k := by simp at hcs; omega
        obtain ⟨⟨hb, hcok⟩, hrest⟩ := h
        refine ⟨⟨?_, ?_⟩, ih.2 cs hszcs b bl br th hrest h2 h3⟩
        · split
          · rw [add_noise_sep_bounds_eq]; exact hb
          · exact hb
        · split
          · next hfit =>
            simp only [fits_noise_sep, Bool.and_eq_true, decide_eq_true_eq] at hfit
            exact ih.1 c hszc bl br th hcok hfit.1 h2 h3 hfit.2
          · exact hcok



theorem add_min_children_nofit (cs : List Node) (m : Nat) (th : ℚ)
    (h : ∀ c ∈ cs, fits_min m c = false) :
    add_min_children cs m th = (cs, false) := by
  induction cs with
  | nil => simp [add_min_children]
  | cons c cs ih =>
    simp only [add_min_children]
    rw [h c (List.mem_cons_self c cs)]
    rw [ih (fun c hc => h c (List.mem_cons_of_mem _ hc))]
    simp

theorem add_min_unchanged_strong : ∀ k : Nat,
    (∀ n : Node, sizeOf n ≤ k → ∀ m th ip,
      (add_min n m th ip).2 = true → (add_min n m th ip).1 = n) ∧
    (∀ cs : List Node, sizeOf cs ≤ k → ∀ m th,
      (cs.filter (fits_min m)).length ≤ 1 →
      (add_min_children cs m th).2 = true → (add_min_children cs m th).1 = cs) := by
  intro k
  induction k with
  | zero =>
    constructor
    · intro n hn
      exfalso
      cases n with
      | mk b spec th lvl children => simp [Node.mk.sizeOf_spec] at hn
    · intro cs hcs
      exfalso
      cases cs with
      | nil => simp at hcs
      | cons c cs => simp at hcs
  | succ k ih =>
    constructor
    · intro n hn m th ip hr
      cases n with
      | mk b spec thr lvl children =>
        have hsz : sizeOf children ≤ k := by
          have := node_sizeOf_children b spec thr lvl children
          omega
        simp only [add_min] at hr ⊢
        split at hr
        · next hcond =>
          simp only [add_min, hcond, if_true]
        · next hcond =>
          rw [if_neg hcond]
          split at hr
          · next hfit =>
            rw [if_pos hfit]
            have := ih.2 children hsz m th (le_of_eq hfit) hr
            rw [this]
          · next hfit =>
            rw [if_neg hfit]
            split at hr
            · next hemp =>
              rw [if_pos hemp]
            · next hemp =>
              rw [if_neg hemp]
              split at hr
              · simp at hr
              · simp at hr
    · intro cs hcs m th hfilter hr
      cases cs with
      | nil => simp [add_min_children]
      | cons c cs =>
        have hszc : sizeOf c ≤ k := by simp at hcs; omega
        have hszcs : sizeOf cs ≤ k := by simp at hcs; omega
        simp only [add_min_children] at hr ⊢
        by_cases hfc : fits_min m c = true
        · have hnofit : ∀ c' ∈ cs, fits_min m c' = false := by
            intro c' hc'
            by_contra hb
            have hb' : fits_min m c' = true := by
              cases hx : fits_min m c' with
              | false => exact absurd hx hb
              | true => rfl
            have : 2 ≤ ((c :: cs).filter (fits_min m)).length := by
              simp only [List.filter_cons, hfc, if_true]
              have : c' ∈ cs.filter (fits_min m) := List.mem_filter.mpr ⟨hc', hb'⟩
              have := List.length_pos_of_mem this
              simp only [List.length_cons]
              omega
            omega
          rw [add_min_children_nofit cs m th hnofit, if_pos hfc] at hr ⊢
          simp only [Bool.or_false] at hr
          rw [ih.1 c hszc m th false hr]
        · have hfc' : fits_min m c = false := by
            cases hx : fits_min m c with
            | false => rfl
            | true => exact absurd hx hfc
          rw [if_neg (by simp [hfc'])] at hr ⊢
          simp only [Bool.false_or] at hr
          have hfilter' : (cs.filter (fits_min m)).length ≤ 1 := by
            simpa [List.filter_cons, hfc'] using hfilter
          rw [ih.2 cs hszcs m th hfilter' hr]



theorem add_min_noraise_strong : ∀ k : Nat,
    (∀ n : Node, sizeOf n ≤ k → ∀ m th, wfNode n = true →
      n.bounds.1 ≤ m → m ≤ n.bounds.2 → (add_min n m th false).2 = false) ∧
    (∀ cs : List Node, sizeOf cs ≤ k → ∀ m th, wfNodeL cs = true →
      (add_min_children cs m th).2 = false) := by
  intro k
  induction k with
  | zero =>
    constructor
    · intro n hn
      exfalso
      cases n with
      | mk b spec th lvl children => simp [Node.mk.sizeOf_spec] at hn
    · intro cs hcs
      exfalso
      cases cs with
      | nil => simp at hcs
      | cons c cs => simp at hcs
  | succ k ih =>
    constructor
    · intro n hn m th hwf h1 h2
      cases n with
      | mk b spec thr lvl children =>
        have hsz : sizeOf children ≤ k := by
          have := node_sizeOf_children b spec thr lvl children
          omega
        simp only [Node.bounds] at h1 h2
        simp only [wfNode, Bool.and_eq_true, decide_eq_true_eq] at hwf
        obtain ⟨⟨hble, hlen⟩, hwfl⟩ := hwf
        simp only [add_min]
        rw [if_neg (by simp; omega)]
        split
        · exact ih.2 children hsz m th hwfl
        · rw [if_neg ?hemp]
          case hemp =>
            simp only [Bool.or_eq_true, List.isEmpty_iff, not_or]
            constructor
            · intro hl
              have := congrArg List.length hl
              simp only [List.length_take, List.length_nil] at this
              omega
            · intro hl
              have := congrArg List.length hl
              simp only [List.length_drop, List.length_nil] at this
              omega
          split
          · rfl
          · rfl
    · intro cs hcs m th hwfl
      cases cs with
      | nil => simp [add_min_children]
      | cons c cs =>
        have hszc : sizeOf c ≤ k := by simp at hcs; omega
        have hszcs : sizeOf cs ≤ k := by simp at hcs; omega
        simp only [wfNodeL, Bool.and_eq_true] at hwfl
        simp only [add_min_children]
        simp only [Bool.or_eq_false_iff]
        constructor
        · split
          · next hfit =>
            simp only [fits_min, Bool.and_eq_true, decide_eq_true_eq] at hfit
            exact ih.1 c hszc m th hwfl.1 hfit.1 hfit.2
          · rfl
        · exact ih.2 cs hszcs m th hwfl.2



/-- Preconditions under which the spec states the bound-nesting invariant: each
noise-separation call passes ordered bound pairs lying within the root bounds
(`add_min` enforces its own bounds check, so needs no precondition). -/
def opPre (b : Nat × Nat) : Op → Prop
  | .noiseSep bl br _ => b.1 ≤ bl.1 ∧ bl.1 ≤ br.1 ∧ bl.2 ≤ br.2 ∧ br.2 ≤ b.2
  | .minSplit _ _ => True

theorem containOk_buildTree : ∀ ops : List Op, ∀ n : Node, ∀ b : Nat × Nat,
    n.bounds = b → containOk n = true → (∀ op ∈ ops, opPre b op) →
    containOk (buildTree n ops) = true := by
  intro ops
  induction ops with
  | nil => intro n b hb h hops; simpa [buildTree] using h
  | cons op ops ih =>
    intro n b hb h hops
    have hstep : buildTree n (op :: ops) = buildTree (applyOp n op) ops := rfl
    rw [hstep]
    have hbounds : (applyOp n op).bounds = b := by
      cases op with
      | noiseSep bl br th => rw [applyOp, add_noise_sep_bounds_eq, hb]
      | minSplit m th => rw [applyOp, add_min_bounds_eq, hb]
    refine ih (applyOp n op) b hbounds ?_ (fun o ho => hops o (List.mem_cons_of_mem _ ho))
    cases op with
    | noiseSep bl br th =>
      have hpre := hops _ (List.mem_cons_self _ _)
      simp only [opPre] at hpre
      exact (containOk_add_noise_sep_strong (sizeOf n)).1 n le_rfl bl br th h
        (hb ▸ hpre.1) hpre.2.1 hpre.2.2.1 (hb ▸ hpre.2.2.2)
    | minSplit m th =>
      exact (containOk_add_min_strong (sizeOf n)).1 n le_rfl m th false h

/-- C2 counterexample: starting from a fresh root over bounds (0, 10) and inserting
the same minimum twice, the second call finds two fitting children, falls through
to the insertion branch and appends a second pair, so the root ends with 4
children, violating the claimed "0 or exactly 2". -/
theorem C2_children_arity_counterexample :
    arity02 (buildTree (Node.mk (0, 10) [2, 2, 2, 2, 2, 2, 2, 2, 2, 2, 2] 1 0 [])
      [Op.minSplit 5 1, Op.minSplit 5 1]) = false ∧
    (buildTree (Node.mk (0, 10) [2, 2, 2, 2, 2, 2, 2, 2, 2, 2, 2] 1 0 [])
      [Op.minSplit 5 1, Op.minSplit 5 1]).children.length = 4 :=
  ⟨by decide, by decide⟩

/-- C2 (amended): for every tree reachable from a fresh root node by any sequence
of add_noise_sep and add_min calls, every node has an even number of children
(0, 2, 4, ...), and in particular never exactly 1: each insertion either recurses
into a fitting child or appends the left and the right child together (or appends
nothing when the prominence gate fails). -/
theorem C2_children_arity (b : Nat × Nat) (spec : List ℚ) (th : ℚ) (ops : List Op) :
    arityEven (buildTree (Node.mk b spec th 0 []) ops) = true :=
  arityEven_buildTree ops _ (by simp [arityEven, arityEvenL])

/-- C3 counterexample: on a fresh root over bounds (0, 5), `add_noise_sep` with an
out-of-range right pair (3, 9) appends a child whose right bound 9 exceeds the
parent bound 5 (the source never checks the pair against the node bounds), and a
subsequent `add_min` at the left edge of that child produces a child as wide as
its parent; the claimed invariant is false for this reachable tree. -/
theorem C3_bounds_nesting_counterexample :
    containStrict (buildTree (Node.mk (0, 5) [2, 2, 2, 2, 2, 2] 1 0 [])
      [Op.noiseSep (0, 1) (3, 9) 1, Op.minSplit 3 1]) = false :=
  by decide

/-- C3 (amended): for every tree reachable from a fresh root by add_noise_sep and
add_min calls in which every add_noise_sep call passes ordered bound pairs inside
the root bounds (`root.l ≤ bl.l ≤ br.l`, `bl.r ≤ br.r ≤ root.r`), every child c of
a parent p satisfies `p.l ≤ c.l`, `c.r ≤ p.r` and `c.r - c.l ≤ p.r - p.l` (width
at most the parent's; the strict inequality of the original claim fails, e.g.
when a minimum index coincides with a node bound). -/
theorem C3_bounds_nesting (b : Nat × Nat) (spec : List ℚ) (th : ℚ) (ops : List Op)
    (hops : ∀ op ∈ ops, opPre b op) :
    containOk (buildTree (Node.mk b spec th 0 []) ops) = true :=
  containOk_buildTree ops _ b rfl (by simp [containOk, containOkL]) hops

theorem C3_bounds_nesting_witness :
    containOk (buildTree (Node.mk (0, 5) [2, 2, 2, 2, 2, 2] 1 0 [])
      [Op.noiseSep (1, 2) (4, 5) 1, Op.minSplit 2 1]) = true :=
  C3_bounds_nesting (0, 5) [2, 2, 2, 2, 2, 2] 1 [Op.noiseSep (1, 2) (4, 5) 1, Op.minSplit 2 1]
    (by intro op hop
        fin_cases hop <;> simp [opPre])

/-- C4: `Node.add_min(new_index, thres)` raises exactly when `new_index` lies
outside the node bounds (for a consistent node: ordered bounds, spectrum chunk of
matching length, recursively), and whenever it raises the tree is unchanged; under
the precondition `bounds[0] ≤ new_index ≤ bounds[1]` the error branch is
unreachable. -/
theorem C4_add_min_error (n : Node) (m : Nat) (th : ℚ) (hwf : wfNode n = true) :
    ((add_min n m th false).2 = true ↔ (m < n.bounds.1 ∨ n.bounds.2 < m)) ∧
    ((add_min n m th false).2 = true → (add_min n m th false).1 = n) := by
  constructor
  · constructor
    · intro hr
      by_contra hout
      push_neg at hout
      have := (add_min_noraise_strong (sizeOf n)).1 n le_rfl m th hwf
        (by omega) (by omega)
      rw [this] at hr
      exact Bool.false_ne_true hr
    · intro hout
      cases n with
      | mk b spec thr lvl children =>
        simp only [Node.bounds] at hout
        simp only [add_min]
        rw [if_pos (by simp; omega)]
  · exact (add_min_unchanged_strong (sizeOf n)).1 n le_rfl m th false

theorem C4_add_min_error_witness :
    (add_min (Node.mk (2, 5) [1, 1, 1, 1] 1 0 []) 7 1 false).2 = true ∧
    (add_min (Node.mk (2, 5) [1, 1, 1, 1] 1 0 []) 7 1 false).1
      = Node.mk (2, 5) [1, 1, 1, 1] 1 0 [] := by
  have h := C4_add_min_error (Node.mk (2, 5) [1, 1, 1, 1] 1 0 []) 7 1 (by decide)
  have hf : (add_min (Node.mk (2, 5) [1, 1, 1, 1] 1 0 []) 7 1 false).2 = true :=
    h.1.mpr (by decide)
  exact ⟨hf, h.2 hf⟩

/-! ## C5: peak detection as maximal runs -/

/-- Follows the spec's words (section 4.2): the auxiliary loop grouping a list of
indices into maximal runs of consecutive integers; `l` is the left end and `cur`
the last index of the run being grown. -/
def groupRunsAux (l cur : Nat) : List Nat → List (Nat × Nat)
  | [] => [(l, cur)]
  | j :: rest => if j = cur + 1 then groupRunsAux l j rest else (l, cur) :: groupRunsAux j j rest

/-- Follows the spec's words (section 4.2): partition a list of indices into
maximal runs of consecutive integers, each reported as its `(min, max)` pair, in
input order. -/
def groupRuns : List Nat → List (Nat × Nat)
  | [] => []
  | i :: rest => groupRunsAux i i rest

/-- Follows the spec's words (section 4.2): the set of indices above threshold,
partitioned into maximal consecutive runs reported as `(min, max)` in ascending
order, with single-bin runs discarded. -/
def detect_peaks_spec (array : List ℚ) (thres : ℚ) : List (Nat × Nat) :=
  (groupRuns ((List.range array.length).filter (fun i => decide (thres < array.getD i 0)))).filter
    (fun e => decide (e.1 ≠ e.2))

theorem splitsAt_ne_nil (l : List Nat) (cs : List Nat) : splitsAt l cs ≠ [] := by
  cases cs <;> simp [splitsAt]

theorem splitsAt_head_ne_nil (l : List Nat) (hl : l ≠ []) (js : List Nat) :
    (splitsAt l (js.map (· + 1))).headD [] ≠ [] := by
  cases js with
  | nil => simpa [splitsAt] using hl
  | cons c cs =>
    simp only [List.map_cons, splitsAt, List.headD_cons]
    intro h
    have hlen := congrArg List.length h
    simp only [List.length_take, List.length_nil] at hlen
    have := List.length_pos_iff_ne_nil.mpr hl
    omega

theorem splitsAt_shift (a : Nat) (l : List Nat) (cs : List Nat) :
    splitsAt (a :: l) (cs.map (· + 1))
      = (a :: (splitsAt l cs).headD []) :: (splitsAt l cs).tail := by
  cases cs with
  | nil => simp [splitsAt]
  | cons c cs' =>
    simp only [List.map_cons, splitsAt, List.take_succ_cons, List.drop_succ_cons,
      List.headD_cons, List.tail_cons]
    congr 1
    have hmap : (cs'.map (· + 1)).map (· - (c + 1)) = cs'.map (· - c) := by
      rw [List.map_map]
      refine List.map_congr_left fun x _ => ?_
      simp only [Function.comp_apply]
      omega
    rw [hmap]

theorem jumpsOf_cons (i j : Nat) (t : List Nat)
    (h : List.Pairwise (· < ·) (i :: j :: t)) :
    jumpsOf (i :: j :: t)
      = (if (j : ℤ) - (i : ℤ) ≠ 1 then [0] else []) ++ (jumpsOf (j :: t)).map (· + 1) := by
  have hi : ∀ x ∈ j :: t, i < x := fun x hx => List.rel_of_pairwise_cons h hx
  have hmapeq :
      ((( j :: t).zip t).filter (fun p => decide ((p.2 : ℤ) - (p.1 : ℤ) ≠ 1))).map
          (fun p => List.indexOf p.1 (i :: j :: t))
        = (jumpsOf (j :: t)).map (· + 1) := by
    rw [jumpsOf]
    have htail : (j :: t).tail = t := rfl
    rw [htail, List.map_map]
    refine List.map_congr_left fun p hp => ?_
    have hmem := (List.of_mem_zip (List.mem_of_mem_filter hp)).1
    have hne : i ≠ p.1 := Nat.ne_of_lt (hi p.1 hmem)
    simp only [Function.comp_apply]
    rw [List.indexOf_cons_ne _ hne]
  rw [jumpsOf]
  have htail2 : (i :: j :: t).tail = j :: t := rfl
  rw [htail2, List.zip_cons_cons, List.filter_cons]
  by_cases hgap : ((j : ℤ) - (i : ℤ) ≠ 1)
  · rw [if_pos (by simpa using hgap), if_pos hgap, List.map_cons]
    rw [List.indexOf_cons_self]
    rw [hmapeq]
    rfl
  · rw [if_neg (by simpa using hgap), if_neg hgap]
    rw [hmapeq]
    rfl



theorem getLastD_irrel (l : List Nat) (h : l ≠ []) (d d' : Nat) :
    l.getLastD d = l.getLastD d' := by
  cases l with
  | nil => exact absurd rfl h
  | cons a t => rfl

theorem groupRunsAux_head (t : List Nat) : ∀ l cur : Nat,
    groupRunsAux l cur t
      = (l, ((groupRunsAux cur cur t).headD (cur, cur)).2) :: (groupRunsAux cur cur t).tail := by
  induction t with
  | nil => intro l cur; simp [groupRunsAux]
  | cons j rest ih =>
    intro l cur
    by_cases hj : j = cur + 1
    · simp only [groupRunsAux, hj, if_true]
      rw [ih l (cur + 1), ih cur (cur + 1)]
      simp
    · simp only [groupRunsAux, hj, if_false]
      simp

theorem groupRunsAux_bounds (t : List Nat) : ∀ l cur : Nat, l ≤ cur →
    ∀ p ∈ groupRunsAux l cur t, p.1 ≤ p.2 := by
  induction t with
  | nil =>
    intro l cur hlc p hp
    simp [groupRunsAux] at hp
    subst hp
    exact hlc
  | cons j rest ih =>
    intro l cur hlc p hp
    by_cases hj : j = cur + 1
    · rw [groupRunsAux, if_pos hj] at hp
      exact ih l j (by omega) p hp
    · rw [groupRunsAux, if_neg hj] at hp
      rcases List.mem_cons.mp hp with hp | hp
      · subst hp; exact hlc
      · exact ih j j le_rfl p hp

theorem splitsAt_map_eq_groupRuns (ind : List Nat) (h : List.Chain' (· < ·) ind)
    (hne : ind ≠ []) :
    (splitsAt ind ((jumpsOf ind).map (· + 1))).map (fun r => (r.headD 0, r.getLastD 0))
      = groupRuns ind := by
  induction ind with
  | nil => exact absurd rfl hne
  | cons i rest ih =>
    cases rest with
    | nil =>
      have hj : jumpsOf [i] = [] := rfl
      rw [hj]
      simp [splitsAt, groupRuns, groupRunsAux]
    | cons j t =>
      have hpw : List.Pairwise (· < ·) (i :: j :: t) := List.chain'_iff_pairwise.mp h
      have hch : List.Chain' (· < ·) (j :: t) ∧ i < j := by
        rw [List.chain'_cons] at h
        exact ⟨h.2, h.1⟩
      have ihs := ih hch.1 (by simp)
      rw [jumpsOf_cons i j t hpw]
      by_cases hgap : ((j : ℤ) - (i : ℤ) ≠ 1)
      · rw [if_pos hgap]
        have hcuts : (([0] ++ (jumpsOf (j :: t)).map (· + 1)).map (· + 1))
            = 1 :: (((jumpsOf (j :: t)).map (· + 1)).map (· + 1)) := by simp
        rw [hcuts, splitsAt]
        have hdrop : (((jumpsOf (j :: t)).map (· + 1)).map (· + 1)).map (· - 1)
            = (jumpsOf (j :: t)).map (· + 1) := by
          rw [List.map_map, List.map_map]
          refine List.map_congr_left fun x _ => ?_
          simp only [Function.comp_apply]
          omega
        have htake : (i :: j :: t).take 1 = [i] := rfl
        have hdrop1 : (i :: j :: t).drop 1 = j :: t := rfl
        rw [hdrop, htake, hdrop1, List.map_cons, ihs]
        have hja : j ≠ i + 1 := by omega
        show ((i, i) :: groupRuns (j :: t)) = groupRuns (i :: j :: t)
        rw [groupRuns, groupRuns, groupRunsAux, if_neg hja]
      · rw [if_neg hgap]
        have hji : j = i + 1 := by omega
        simp only [List.nil_append]
        rw [List.map_map]
        have hcomp : ((· + 1) ∘ (· + 1) : Nat → Nat) = fun x => (x + 1) + 1 := rfl
        have hcuts : (jumpsOf (j :: t)).map ((· + 1) ∘ (· + 1))
            = (((jumpsOf (j :: t)).map (· + 1)).map (· + 1)) := by
          rw [List.map_map]
        rw [hcuts, splitsAt_shift]
        obtain ⟨r0, rs, hR⟩ :=
          List.exists_cons_of_ne_nil (splitsAt_ne_nil (j :: t) ((jumpsOf (j :: t)).map (· + 1)))
        have hr0 : r0 ≠ [] := by
          have := splitsAt_head_ne_nil (j :: t) (by simp) (jumpsOf (j :: t))
          rw [hR] at this
          simpa using this
        rw [hR]
        simp only [List.headD_cons, List.tail_cons, List.map_cons]
        rw [hR, List.map_cons] at ihs
        have hpair : ((i :: r0).headD 0, (i :: r0).getLastD 0) = (i, r0.getLastD 0) := by
          have hlast : (i :: r0).getLastD 0 = r0.getLastD 0 := by
            cases r0 with
            | nil => exact absurd rfl hr0
            | cons b t' => rfl
          rw [hlast]
          rfl
        simp only [List.headD_cons] at hpair
        rw [hpair]
        show ((i, r0.getLastD 0) :: rs.map _) = groupRuns (i :: j :: t)
        rw [groupRuns, groupRunsAux, if_pos (by omega : j = i + 1)]
        rw [groupRunsAux_head t i j]
        have hji' : groupRunsAux j j t = groupRuns (j :: t) := by rw [groupRuns]
        rw [hji', ← ihs]
        simp
  termination_by ind.length



theorem runsFromInd_eq_groupRuns (ind : List Nat) (h : List.Chain' (· < ·) ind) :
    runsFromInd ind = groupRuns ind := by
  cases ind with
  | nil =>
    have hj : jumpsOf [] = [] := rfl
    simp [runsFromInd, hj, splitsAt, groupRuns]
  | cons i rest =>
    have hne : (i :: rest) ≠ [] := by simp
    have hhead := splitsAt_head_ne_nil (i :: rest) hne (jumpsOf (i :: rest))
    have hlen : 0 < ((splitsAt (i :: rest) ((jumpsOf (i :: rest)).map (· + 1))).headD []).length :=
      List.length_pos_iff_ne_nil.mpr hhead
    simp only [runsFromInd]
    rw [if_pos hlen]
    exact splitsAt_map_eq_groupRuns _ h hne

theorem groupRuns_bounds (ind : List Nat) : ∀ p ∈ groupRuns ind, p.1 ≤ p.2 := by
  cases ind with
  | nil => intro p hp; simp [groupRuns] at hp
  | cons i rest => exact groupRunsAux_bounds rest i i le_rfl

/-- C5: the peak detection step (detect_peak_simple followed by the single-bin
width filter of tree_from_spectrum) returns exactly the maximal runs of
consecutive indices with `array[i] > thres`, each as its `(min, max)` pair in
ascending order, with single-bin runs discarded (`detect_peaks_spec` transcribes
the words of spec section 4.2); when no index exceeds the threshold the result is
the empty list. -/
theorem C5_detect_peaks (array : List ℚ) (thres : ℚ) :
    ((detect_peak_simple array thres).filter (fun e => decide (0 < e.2 - e.1))
      = detect_peaks_spec array thres) ∧
    ((∀ i, i < array.length → array.getD i 0 ≤ thres) →
      (detect_peak_simple array thres).filter (fun e => decide (0 < e.2 - e.1)) = []) := by
  have hchain : List.Chain' (· < ·)
      ((List.range array.length).filter (fun i => decide (thres < array.getD i 0))) :=
    ((List.pairwise_lt_range _).filter _).chain'
  have hmain : detect_peak_simple array thres
      = groupRuns ((List.range array.length).filter (fun i => decide (thres < array.getD i 0))) :=
    runsFromInd_eq_groupRuns _ hchain
  constructor
  · rw [detect_peaks_spec, hmain]
    refine List.filter_congr fun p hp => ?_
    have hb := groupRuns_bounds _ p hp
    rw [decide_eq_decide]
    omega
  · intro h
    have hind : (List.range array.length).filter (fun i => decide (thres < array.getD i 0))
        = [] := by
      refine List.filter_eq_nil_iff.mpr fun i hi => ?_
      simp only [decide_eq_true_eq, not_lt]
      exact h i (List.mem_range.mp hi)
    rw [hmain, hind]
    simp [groupRuns]

theorem C5_detect_peaks_witness :
    (detect_peak_simple [1, 1] 2).filter (fun e => decide (0 < e.2 - e.1)) = [] :=
  (C5_detect_peaks [1, 1] 2).2 (by decide)

/-! ## C10, C6, C8 -/

/-- C10: the recursive generator peak_pairs_to_call terminates on every finite
peak list (in this embedding it is a total function; its recursion is justified
by `split_peak_ind_ne_lengths`): `split_peak_ind_by_space` applied to a list of
length at least 2 returns two non-empty sublists, each strictly shorter than the
input, and on a list of length 1 it returns two equal lists, on which the
generator yields nothing, stopping the recursion. -/
theorem C10_split_termination (l : List (Nat × Nat)) (h2 : 2 ≤ l.length) :
    ((split_peak_ind_by_space l).1 ≠ [] ∧ (split_peak_ind_by_space l).2 ≠ [] ∧
     (split_peak_ind_by_space l).1.length < l.length ∧
     (split_peak_ind_by_space l).2.length < l.length) ∧
    (∀ p : Nat × Nat, split_peak_ind_by_space [p] = ([p], [p]) ∧
      peak_pairs_to_call [p] = []) := by
  refine ⟨split_peak_ind_parts l h2, fun p => ⟨split_peak_ind_singleton p, ?_⟩⟩
  rw [peak_pairs_to_call]
  simp [split_peak_ind_singleton]

theorem C10_split_termination_witness :
    (split_peak_ind_by_space [(0, 1), (3, 4)]).1 ≠ [] ∧
    (split_peak_ind_by_space [(0, 1), (3, 4)]).2 ≠ [] ∧
    (split_peak_ind_by_space [(0, 1), (3, 4)]).1.length
      < ([(0, 1), (3, 4)] : List (Nat × Nat)).length ∧
    (split_peak_ind_by_space [(0, 1), (3, 4)]).2.length
      < ([(0, 1), (3, 4)] : List (Nat × Nat)).length :=
  (C10_split_termination [(0, 1), (3, 4)] (by decide)).1

theorem foldl_min_le_init (t : List ℚ) : ∀ a : ℚ, t.foldl min a ≤ a := by
  induction t with
  | nil => intro a; exact le_rfl
  | cons x t ih =>
    intro a
    calc (x :: t).foldl min a = t.foldl min (min a x) := rfl
    _ ≤ min a x := ih _
    _ ≤ a := min_le_left _ _

theorem foldl_min_mem (t : List ℚ) : ∀ a : ℚ, t.foldl min a = a ∨ t.foldl min a ∈ t := by
  induction t with
  | nil => intro a; exact Or.inl rfl
  | cons x t ih =>
    intro a
    rcases ih (min a x) with h | h
    · rcases min_choice a x with hm | hm
      · exact Or.inl (by rw [List.foldl_cons, h, hm])
      · refine Or.inr ?_
        rw [List.foldl_cons, h, hm]
        exact List.mem_cons_self x t
    · exact Or.inr (List.mem_cons_of_mem _ h)

theorem foldl_min_le_mem (t : List ℚ) : ∀ a x : ℚ, x ∈ t → t.foldl min a ≤ x := by
  induction t with
  | nil => intro a x hx; simp at hx
  | cons y t ih =>
    intro a x hx
    rcases List.mem_cons.mp hx with h | h
    · subst h
      calc (x :: t).foldl min a = t.foldl min (min a x) := rfl
      _ ≤ min a x := foldl_min_le_init _ _
      _ ≤ x := min_le_right _ _
    · exact ih _ x h

theorem listMinD_mem (l : List ℚ) (h : l ≠ []) : listMinD l ∈ l := by
  cases l with
  | nil => exact absurd rfl h
  | cons x t =>
    rcases foldl_min_mem t x with hm | hm
    · rw [listMinD, hm]; exact List.mem_cons_self x t
    · rw [listMinD]; exact List.mem_cons_of_mem _ hm

theorem listMinD_le (l : List ℚ) (x : ℚ) (hx : x ∈ l) : listMinD l ≤ x := by
  cases l with
  | nil => simp at hx
  | cons y t =>
    rcases List.mem_cons.mp hx with h | h
    · subst h; exact foldl_min_le_init t x
    · exact foldl_min_le_mem t y x h

/-- C6: for a prepared spectrum, the noise threshold is 1e-25 when every Z bin is
masked, and otherwise the minimum of Z over the unmasked bins multiplied by the
linear form of the configured thres_factor_co (the dB value is converted by
h.z2lin, modelled here as the already-converted linear factor `flin`). -/
theorem C6_noise_threshold (specZ : List ℚ) (mask : List Bool) (flin : ℚ)
    (hlen : specZ.length = mask.length) :
    (mask.all (fun b => b) = true → noise_thres_of specZ mask flin = 1 / 10 ^ 25) ∧
    (mask.all (fun b => b) = false →
      ∃ z ∈ unmaskedBins specZ mask, noise_thres_of specZ mask flin = z * flin ∧
        ∀ y ∈ unmaskedBins specZ mask, z ≤ y) := by
  constructor
  · intro hall
    rw [noise_thres_of, if_pos hall]
  · intro hall
    have hne : unmaskedBins specZ mask ≠ [] := by
      obtain ⟨x, hx, hxf⟩ := List.all_eq_false.mp hall
      obtain ⟨i, hi, hix⟩ := List.mem_iff_getElem.mp hx
      have hiz : i < specZ.length := by omega
      have hizip : i < (specZ.zip mask).length := by
        rw [List.length_zip]
        omega
      have hpair : (specZ.zip mask)[i] = (specZ[i], mask[i]) :=
        List.getElem_zip
      have hmem : (specZ[i], false) ∈ specZ.zip mask := by
        rw [show ((specZ[i], false)) = (specZ.zip mask)[i] by
          rw [hpair, hix]
          simp only [Bool.not_eq_true] at hxf
          rw [hxf]]
        exact List.getElem_mem _
      have : specZ[i] ∈ unmaskedBins specZ mask := by
        rw [unmaskedBins]
        refine List.mem_map.mpr ⟨(specZ[i], false), ?_, rfl⟩
        exact List.mem_filter.mpr ⟨hmem, by simp⟩
      intro hnil
      rw [hnil] at this
      simp at this
    refine ⟨listMinD (unmaskedBins specZ mask), listMinD_mem _ hne, ?_, ?_⟩
    · rw [noise_thres_of, if_neg (by rw [hall]; exact Bool.false_ne_true)]
    · exact fun y hy => listMinD_le _ y hy

theorem C6_noise_threshold_witness :
    noise_thres_of [3, 5] [true, true] 2 = 1 / 10 ^ 25 :=
  (C6_noise_threshold [3, 5] [true, true] 2 (by decide)).1 (by decide)

theorem zeroWhere_getD (arr : List ℚ) (mask : List Bool) (i : Nat)
    (hi : i < (zeroWhere arr mask).length) :
    (zeroWhere arr mask).getD i 0
      = if mask.getD i false = true then 0 else arr.getD i 0 := by
  have hlen := hi
  simp only [zeroWhere, List.length_zipWith] at hlen
  rw [List.getD_eq_getElem _ _ hi]
  simp only [zeroWhere, List.getElem_zipWith]
  rw [List.getD_eq_getElem _ _ (by omega : i < mask.length),
    List.getD_eq_getElem _ 0 (by omega : i < arr.length)]

/-- C8 counterexample: with specZ = [3], specZcx = [1] and the single bin failing
the Zcx validity mask, the claim requires the prepared specZ_validcx to be zeroed
at that bin, but it keeps the raw value 3: the second zeroing statement of the
source (line 764) assigns to specZcx_validcx again instead of specZ_validcx. -/
theorem C8_validcx_counterexample :
    (validcx_arrays [3] [1] [true]).1 = [3] ∧ ((3 : ℚ) ≠ 0) ∧
    (validcx_arrays [3] [1] [true]).2 = [0] :=
  ⟨rfl, by norm_num, rfl⟩

/-- C8 (amended): for every prepared spectrum, specZcx_validcx is a copy of
specZcx in which every bin failing the Zcx validity mask is set to zero (other
bins unchanged), while specZ_validcx is an unmodified copy of specZ: the source
zeroes specZcx_validcx twice and never zeroes specZ_validcx. -/
theorem C8_validcx_arrays (specZ specZcx : List ℚ) (mask : List Bool) :
    (validcx_arrays specZ specZcx mask).1 = specZ ∧
    (validcx_arrays specZ specZcx mask).2.length = min specZcx.length mask.length ∧
    ∀ i, i < (validcx_arrays specZ specZcx mask).2.length →
      (mask.getD i false = true → (validcx_arrays specZ specZcx mask).2.getD i 0 = 0) ∧
      (mask.getD i false = false →
        (validcx_arrays specZ specZcx mask).2.getD i 0 = specZcx.getD i 0) := by
  refine ⟨rfl, ?_, ?_⟩
  · show (zeroWhere (zeroWhere specZcx mask) mask).length = _
    simp only [zeroWhere, List.length_zipWith]
    omega
  · intro i hi
    have hi1 : i < (zeroWhere (zeroWhere specZcx mask) mask).length := hi
    have hi2 : i < (zeroWhere specZcx mask).length := by
      simp only [zeroWhere, List.length_zipWith] at hi1 ⊢
      omega
    have h1 := zeroWhere_getD (zeroWhere specZcx mask) mask i hi1
    have h2 := zeroWhere_getD specZcx mask i hi2
    constructor
    · intro hm
      show (zeroWhere (zeroWhere specZcx mask) mask).getD i 0 = 0
      rw [h1, if_pos hm]
    · intro hm
      show (zeroWhere (zeroWhere specZcx mask) mask).getD i 0 = specZcx.getD i 0
      rw [h1, hm]
      simp only [Bool.false_eq_true, if_false]
      rw [h2, hm]
      simp only [Bool.false_eq_true, if_false]

theorem C8_validcx_arrays_witness :
    (validcx_arrays [3] [7] [true]).1 = [3] ∧
    (validcx_arrays [3] [7] [true]).2.getD 0 0 = 0 :=
  ⟨(C8_validcx_arrays [3] [7] [true]).1,
   ((C8_validcx_arrays [3] [7] [true]).2.2 0 (by decide)).1 (by decide)⟩

/-! ## C7 and C9 -/

theorem boundsSlice_getD_sum_zero (arr : List ℚ) (mask : List Bool) (l r : Nat)
    (hlen : arr.length = mask.length)
    (hzero : ∀ i, i < mask.length → mask.getD i false = true → arr.getD i 0 = 0)
    (hmask : ∀ i, l ≤ i → i ≤ r → mask.getD i false = true)
    (hb : r < mask.length) :
    (boundsSlice arr (l, r)).sum = 0 := by
  refine List.sum_eq_zero fun x hx => ?_
  rw [boundsSlice, pyslice] at hx
  obtain ⟨j, hj, hjx⟩ := List.mem_iff_getElem.mp hx
  have hjlen := hj
  rw [List.length_take, List.length_drop] at hjlen
  have hjarr : l + j < arr.length := by omega
  have hval : ((arr.drop l).take (r + 1 - l))[j] = arr[l + j] := by
    rw [List.getElem_take, List.getElem_drop]
  have hlj : mask.getD (l + j) false = true := by
    refine hmask (l + j) (by omega) (by omega)
  have := hzero (l + j) (by omega) hlj
  rw [List.getD_eq_getElem _ 0 hjarr] at this
  rw [← hjx, hval, this]

theorem moments_ldr_none (mask : List Bool) (zcxv zv : List ℚ) (bounds : Nat × Nat)
    (h : ldr2_of mask zcxv zv bounds = none) :
    moments_ldr mask zcxv zv bounds = none := by
  rw [moments_ldr, h]

theorem moments_ldr_some (mask : List Bool) (zcxv zv : List ℚ) (bounds : Nat × Nat) (v : ℚ)
    (h : ldr2_of mask zcxv zv bounds = some v) :
    moments_ldr mask zcxv zv bounds = if np_allclose_zero v = true then none else some v := by
  rw [moments_ldr, h]

/-- C7: for a node over bounds [l, r], calc_moments stores as ldr the sum of
specZcx_validcx over [l, r] divided by the sum of specZ_validcx over [l, r] when
some specZcx bin in [l, r] is valid and the quotient is finite and not
numerically zero; it stores NaN (modelled as `none`) when every bin in [l, r] is
masked, or the denominator sum is zero (infinite/NaN quotient), or the quotient
is numerically zero (`np.allclose` to 0). The hypotheses state that the arrays
come from the preparation step: specZcx_validcx is zeroed at masked bins. -/
theorem C7_calc_moments_ldr (mask : List Bool) (zcxv zv : List ℚ) (bounds : Nat × Nat)
    (hlen : zcxv.length = mask.length)
    (hzero : ∀ i, i < mask.length → mask.getD i false = true → zcxv.getD i 0 = 0)
    (hlr : bounds.1 ≤ bounds.2) (hb : bounds.2 < mask.length) :
    ((∀ i, bounds.1 ≤ i → i ≤ bounds.2 → mask.getD i false = true) →
      moments_ldr mask zcxv zv bounds = none) ∧
    ((∃ i, bounds.1 ≤ i ∧ i ≤ bounds.2 ∧ mask.getD i false = false) →
      (((boundsSlice zv bounds).sum ≠ 0 ∧
        np_allclose_zero ((boundsSlice zcxv bounds).sum / (boundsSlice zv bounds).sum)
          = false) →
        moments_ldr mask zcxv zv bounds
          = some ((boundsSlice zcxv bounds).sum / (boundsSlice zv bounds).sum)) ∧
      (((boundsSlice zv bounds).sum = 0 ∨
        np_allclose_zero ((boundsSlice zcxv bounds).sum / (boundsSlice zv bounds).sum)
          = true) →
        moments_ldr mask zcxv zv bounds = none)) := by
  constructor
  · intro hallm
    by_cases hg : mask.all (fun b => b) = true
    · have hldr2 : ldr2_of mask zcxv zv bounds = none := by
        rw [ldr2_of, if_pos hg]
      exact moments_ldr_none _ _ _ _ hldr2
    · have hnum : (boundsSlice zcxv bounds).sum = 0 := by
        refine boundsSlice_getD_sum_zero zcxv mask bounds.1 bounds.2 hlen hzero ?_ hb
        intro i hi1 hi2
        exact hallm i hi1 hi2
      by_cases hden : (boundsSlice zv bounds).sum = 0
      · have hldr2 : ldr2_of mask zcxv zv bounds = none := by
          rw [ldr2_of, if_neg hg, if_pos hden]
        exact moments_ldr_none _ _ _ _ hldr2
      · have hldr2 : ldr2_of mask zcxv zv bounds
            = some ((boundsSlice zcxv bounds).sum / (boundsSlice zv bounds).sum) := by
          rw [ldr2_of, if_neg hg, if_neg hden]
        rw [moments_ldr_some _ _ _ _ _ hldr2]
        have hclose : np_allclose_zero ((boundsSlice zcxv bounds).sum
            / (boundsSlice zv bounds).sum) = true := by
          rw [hnum, zero_div, np_allclose_zero]
          simp
        rw [if_pos hclose]
  · intro hex
    have hg : mask.all (fun b => b) = false := by
      obtain ⟨i, hi1, hi2, hif⟩ := hex
      refine List.all_eq_false.mpr ⟨mask.getD i false, ?_, by rw [hif]; simp⟩
      rw [List.getD_eq_getElem _ _ (by omega : i < mask.length)]
      exact List.getElem_mem _
    have hg' : ¬ mask.all (fun b => b) = true := by
      rw [hg]
      exact Bool.false_ne_true
    constructor
    · intro hcc
      have hldr2 : ldr2_of mask zcxv zv bounds
          = some ((boundsSlice zcxv bounds).sum / (boundsSlice zv bounds).sum) := by
        rw [ldr2_of, if_neg hg', if_neg hcc.1]
      rw [moments_ldr_some _ _ _ _ _ hldr2, if_neg (by rw [hcc.2]; exact Bool.false_ne_true)]
    · intro hcase
      by_cases hden : (boundsSlice zv bounds).sum = 0
      · have hldr2 : ldr2_of mask zcxv zv bounds = none := by
          rw [ldr2_of, if_neg hg', if_pos hden]
        exact moments_ldr_none _ _ _ _ hldr2
      · have hnc : np_allclose_zero ((boundsSlice zcxv bounds).sum
            / (boundsSlice zv bounds).sum) = true := by
          rcases hcase with hd | hn
          · exact absurd hd hden
          · exact hn
        have hldr2 : ldr2_of mask zcxv zv bounds
            = some ((boundsSlice zcxv bounds).sum / (boundsSlice zv bounds).sum) := by
          rw [ldr2_of, if_neg hg', if_neg hden]
        rw [moments_ldr_some _ _ _ _ _ hldr2, if_pos hnc]

theorem C7_calc_moments_ldr_witness :
    moments_ldr [false, true] [5, 0] [1, 1] (0, 1)
      = some ((boundsSlice [5, 0] (0, 1)).sum / (boundsSlice [1, 1] (0, 1)).sum) := by
  have h := C7_calc_moments_ldr [false, true] [5, 0] [1, 1] (0, 1)
    (by decide) (by decide) (by decide) (by decide)
  refine (h.2 ⟨0, le_rfl, by decide, by decide⟩).1 ⟨?_, ?_⟩
  · show (boundsSlice [1, 1] (0, 1)).sum ≠ 0
    norm_num [boundsSlice, pyslice]
  · show np_allclose_zero _ = false
    rw [np_allclose_zero]
    have hsl : (boundsSlice [(5 : ℚ), 0] (0, 1)).sum = 5 := by
      norm_num [boundsSlice, pyslice]
    have hsr : (boundsSlice [(1 : ℚ), 1] (0, 1)).sum = 2 := by
      norm_num [boundsSlice, pyslice]
    rw [hsl, hsr]
    rw [show |(5 : ℚ) / 2| = 5 / 2 from abs_of_pos (by norm_num)]
    norm_num



theorem detect_peak_simple_empty (array : List ℚ) (nt : ℚ)
    (h : ∀ i, i < array.length → array.getD i 0 ≤ nt) :
    detect_peak_simple array nt = [] := by
  have hind : (List.range array.length).filter (fun i => decide (nt < array.getD i 0))
      = [] := by
    refine List.filter_eq_nil_iff.mpr fun i hi => ?_
    simp only [decide_eq_true_eq, not_lt]
    exact h i (List.mem_range.mp hi)
  show runsFromInd ((List.range array.length).filter (fun i => decide (nt < array.getD i 0))) = []
  rw [hind]
  have hj : jumpsOf [] = [] := rfl
  simp [runsFromInd, hj, splitsAt]

/-- C9: when no bin of the mask-filled specZ exceeds the noise threshold, the
filtered peak list is empty and tree_from_spectrum returns the empty traversed
tree; the per-cell packing step of assemble_time_height then records
no_nodes = 0 for the cell while every per-slot output field keeps the fill value
-999 (for an arbitrary per-slot field extractor); no error path is involved. -/
theorem C9_empty_spectrum (s : Spectrum) (maxN : Nat) (field : TravNode → ℚ)
    (h : ∀ i, i < (fill_with s.specZ s.specZ_mask 0).length →
      (fill_with s.specZ s.specZ_mask 0).getD i 0 ≤ s.noise_thres) :
    tree_from_spectrum s = [] ∧
    (pack_cell (tree_from_spectrum s) maxN field).1 = 0 ∧
    (∀ k, (pack_cell (tree_from_spectrum s) maxN field).2 k = -999) := by
  have hdet : detect_peak_simple (fill_with s.specZ s.specZ_mask 0) s.noise_thres = [] :=
    detect_peak_simple_empty _ _ h
  have htree : tree_from_spectrum s = [] := by
    rw [tree_from_spectrum, hdet]
    rfl
  refine ⟨htree, ?_, ?_⟩
  · rw [htree]
    rfl
  · intro k
    rw [htree]
    rfl

theorem C9_empty_spectrum_witness :
    tree_from_spectrum ⟨[1, 1], [false, false], 2⟩ = [] ∧
    (pack_cell (tree_from_spectrum ⟨[1, 1], [false, false], 2⟩) 15 (fun _ => 0)).1 = 0 := by
  have h := C9_empty_spectrum ⟨[1, 1], [false, false], 2⟩ 15 (fun _ => 0) (by decide)
  exact ⟨h.1, h.2.1⟩

end PeakTree
